import Mathlib

/-!
# Verification of the DeepSeek-V2 Mixture-of-Experts layer

A shallow embedding of `src/max/pipelines/architectures/deepseekV2/layers/mix_of_experts.py`.

Tensors are embedded as nested lists of rationals.  The SiLU activation is an
operator of the host tensor library (`ops.silu`), not defined in this file's
source; every property below holds for an arbitrary activation function, so the
embedding takes it as a parameter `silu : ℚ → ℚ`.  Dtype bookkeeping (the two
`cast` calls in `MoE.__call__`) is modelled separately by a symbolic dtype
trace, since the numeric model works over a single scalar type.
-/

namespace MoE

/-- Dot product of two vectors (row of a matrix against a vector). -/
def dot (v w : List ℚ) : ℚ := (List.zipWith (fun a b => a * b) v w).sum

/-- Matrix–vector product: embedding of a 2-D `@` against a column vector. -/
def matVec (M : List (List ℚ)) (v : List ℚ) : List ℚ := M.map (fun row => dot row v)

/-- Elementwise product, embedding of tensor `*`. -/
def vecMul (v w : List ℚ) : List ℚ := List.zipWith (fun a b => a * b) v w

/-- Elementwise sum, embedding of tensor `+`. -/
def vecAdd (v w : List ℚ) : List ℚ := List.zipWith (fun a b => a + b) v w

/-- Scalar multiple of a vector. -/
def smulVec (c : ℚ) (v : List ℚ) : List ℚ := v.map (fun a => c * a)

/-- The weight tensors owned by one `MoE` layer: the three routed-expert weight
banks (lists indexed by expert number, as built by the `__init__` loop and
stacked by `ops.stack` in `__call__`), and the three shared-expert linear
weights (`LinearV2` stores a `[out_dim, in_dim]` matrix applied as `W @ x` per
token). -/
structure Weights where
  down_proj : List (List (List ℚ))
  gate_proj : List (List (List ℚ))
  up_proj : List (List (List ℚ))
  shared_expert_gate_proj : List (List ℚ)
  shared_expert_up_proj : List (List ℚ)
  shared_expert_down_proj : List (List ℚ)

/-- The per-(token, selected-expert) expert computation of `MoE.__call__`
(lines 163–183), for one gathered weight triple: `up = up_slice @ x`;
`gate = gate_slice @ x`; `gate := silu(gate)`; `up * gate`;
`down_slice @ (up * gate)` — in the source's operand order. -/
def expertApply (silu : ℚ → ℚ) (down gate up : List (List ℚ)) (x : List ℚ) : List ℚ :=
  matVec down (vecMul (matVec up x) ((matVec gate x).map silu))

/-- The weighted combination `topk_weight @ down_projs` of `MoE.__call__`
(line 183): a `[1, k]` row of routing weights contracted against the `k`
per-expert output vectors.  The output width is the row count of the gathered
`down_proj` slices, i.e. the length of the first per-expert output. -/
def combine (ws : List ℚ) (vs : List (List ℚ)) : List ℚ :=
  (List.range (vs.headD []).length).map
    (fun c => (List.zipWith (fun a v => a * v.getD c 0) ws vs).sum)

/-- One token's sparse-routing contribution: gather the weight slices at the
token's `topk_idx` positions, run the expert computation for each, and combine
with the token's `topk_weight` row. -/
def sparseTokenOut (silu : ℚ → ℚ) (m : Weights) (idx : List ℕ) (ws : List ℚ)
    (x : List ℚ) : List ℚ :=
  combine ws (idx.map (fun i =>
    expertApply silu (m.down_proj.getD i []) (m.gate_proj.getD i []) (m.up_proj.getD i []) x))

/-- The shared-expert pathway of `MoE.__call__` (lines 186–189), applied to one
token of the original input:
`shared_expert_down_proj(silu(shared_expert_gate_proj(x)) * shared_expert_up_proj(x))`. -/
def sharedExpertOut (silu : ℚ → ℚ) (m : Weights) (x : List ℚ) : List ℚ :=
  matVec m.shared_expert_down_proj
    (vecMul ((matVec m.shared_expert_gate_proj x).map silu)
      (matVec m.shared_expert_up_proj x))

/-- `final_out` of `MoE.__call__`: the sequence of per-token sparse
contributions, computed from the first batch element's token sequence. -/
def sparseSeq (silu : ℚ → ℚ) (m : Weights) (topk_idx : List (List ℕ))
    (topk_weight : List (List ℚ)) (tokens : List (List ℚ)) : List (List ℚ) :=
  List.zipWith (fun x p => sparseTokenOut silu m p.1 p.2 x)
    tokens (topk_idx.zip topk_weight)

/-- `shared_expert_out` of `MoE.__call__`: the shared pathway applied densely
to every token of every batch element of the original input. -/
def sharedSeq (silu : ℚ → ℚ) (m : Weights) (hidden_states : List (List (List ℚ))) :
    List (List (List ℚ)) :=
  hidden_states.map (fun mat => mat.map (sharedExpertOut silu m))

/-- Modelled from the spec: `ops.gather` (a host-library operator, not part of
this file's source) raises on an out-of-range index — "Out-of-range expert
index from gate must raise an error, not silently clamp or wrap."  The three
gathers of `MoE.__call__` succeed iff every routing index addresses an existing
slice of each stacked bank. -/
def gatherOk (m : Weights) (topk_idx : List (List ℕ)) : Bool :=
  topk_idx.all (fun row => row.all (fun i =>
    decide (i < m.down_proj.length) && decide (i < m.gate_proj.length)
      && decide (i < m.up_proj.length)))

/-- Modelled from the spec: the batched matrix multiplies of `MoE.__call__`
(host-library operators) raise on mismatched shapes — "malformed gate output
(wrong length, indices out of range) is a configuration/logic error … propagate
as an error."  The gate output is well-shaped for the matmuls when both of its
tensors have one row per token of the first batch element and each token's
index row and weight row have the same length `k`. -/
def gateShapeOk (topk_idx : List (List ℕ)) (topk_weight : List (List ℚ))
    (tokens : List (List ℚ)) : Bool :=
  decide (topk_idx.length = tokens.length) && decide (topk_weight.length = tokens.length)
    && (topk_idx.zip topk_weight).all (fun p => decide (p.1.length = p.2.length))

/-- The successful result of `MoE.__call__`: the broadcast sum
`final_out + shared_expert_out` — the sparse contribution of the first batch
element's tokens added to every batch element's shared-expert output. -/
def callOut (silu : ℚ → ℚ) (m : Weights) (topk_idx : List (List ℕ))
    (topk_weight : List (List ℚ)) (hidden_states : List (List (List ℚ))) :
    List (List (List ℚ)) :=
  (sharedSeq silu m hidden_states).map
    (fun smat =>
      List.zipWith vecAdd
        (sparseSeq silu m topk_idx topk_weight (hidden_states.headD [])) smat)

/-- `MoE.__call__` (lines 143–191), with the gate's output `(topk_idx,
topk_weight)` taken as an input (the gate is an external collaborator).  In
source order: the gathers run first (out-of-range index errors), then
`hidden_states[0]` is taken (empty batch errors), then the batched matmuls
(gate-shape errors); on success the result is the broadcast sum
`final_out + shared_expert_out`. -/
def call (silu : ℚ → ℚ) (m : Weights) (topk_idx : List (List ℕ))
    (topk_weight : List (List ℚ)) (hidden_states : List (List (List ℚ))) :
    Option (List (List (List ℚ))) :=
  if gatherOk m topk_idx then
    if hidden_states.isEmpty then none
    else
      if gateShapeOk topk_idx topk_weight (hidden_states.headD []) then
        some (callOut silu m topk_idx topk_weight hidden_states)
      else none
  else none

/-- Modelled from the spec (refinement target for the forward computation):
"`Ei(x) = down_proj_i · (silu(gate_proj_i · x) * (up_proj_i · x))` is the gated
feed-forward using expert i's weights" — the spec's operand order, to be
compared with `expertApply`, which follows the source's order. -/
def specExpertFF (silu : ℚ → ℚ) (down gate up : List (List ℚ)) (x : List ℚ) : List ℚ :=
  matVec down (vecMul ((matVec gate x).map silu) (matVec up x))

theorem expertApply_eq_specExpertFF (silu : ℚ → ℚ) (down gate up : List (List ℚ))
    (x : List ℚ) : expertApply silu down gate up x = specExpertFF silu down gate up x := by
  unfold expertApply specExpertFF vecMul
  exact congrArg (matVec down)
    (List.zipWith_comm_of_comm _ (fun a b => mul_comm a b) _ _)

theorem length_vecAdd (v w : List ℚ) : (vecAdd v w).length = min v.length w.length :=
  List.length_zipWith _ _ _

theorem getD_vecAdd : ∀ (v w : List ℚ) (c : ℕ), c < v.length → c < w.length →
    (vecAdd v w).getD c 0 = v.getD c 0 + w.getD c 0
  | _ :: _, _ :: _, 0, _, _ => rfl
  | _ :: v, _ :: w, c + 1, h1, h2 =>
    getD_vecAdd v w c (Nat.lt_of_succ_lt_succ h1) (Nat.lt_of_succ_lt_succ h2)

theorem length_smulVec (a : ℚ) (v : List ℚ) : (smulVec a v).length = v.length :=
  List.length_map _ _

theorem getD_smulVec (a : ℚ) : ∀ (v : List ℚ) (c : ℕ),
    (smulVec a v).getD c 0 = a * v.getD c 0
  | [], 0 => (mul_zero a).symm
  | [], _ + 1 => (mul_zero a).symm
  | _ :: _, 0 => rfl
  | _ :: v, c + 1 => getD_smulVec a v c

theorem list_ext_getD (v w : List ℚ) (hl : v.length = w.length)
    (h : ∀ c, c < v.length → v.getD c 0 = w.getD c 0) : v = w := by
  apply List.ext_getElem hl
  intro i h1 h2
  rw [← List.getD_eq_getElem v 0 h1, ← List.getD_eq_getElem w 0 h2]
  exact h i h1

theorem length_combine (ws : List ℚ) (vs : List (List ℚ)) :
    (combine ws vs).length = (vs.headD []).length := by
  simp [combine]

theorem getD_combine (ws : List ℚ) (vs : List (List ℚ)) (c : ℕ)
    (hc : c < (vs.headD []).length) :
    (combine ws vs).getD c 0 =
      (List.zipWith (fun a v => a * v.getD c 0) ws vs).sum := by
  unfold combine
  rw [List.getD_eq_getElem _ 0 (by simpa using hc)]
  simp

theorem range_map_getD (v : List ℚ) :
    (List.range v.length).map (fun c => v.getD c 0) = v := by
  apply list_ext_getD
  · simp
  · intro c hc
    simp only [List.length_map, List.length_range] at hc
    rw [List.getD_eq_getElem _ 0 (by simpa using hc)]
    simp [List.getD_eq_getElem v 0 hc]

theorem length_matVec (M : List (List ℚ)) (v : List ℚ) : (matVec M v).length = M.length :=
  List.length_map _ _

theorem length_expertApply (silu : ℚ → ℚ) (down gate up : List (List ℚ)) (x : List ℚ) :
    (expertApply silu down gate up x).length = down.length :=
  length_matVec _ _

theorem sum_map_mul_const : ∀ (c : ℚ) (l : List ℚ), (l.map (fun a => c * a)).sum = c * l.sum
  | c, [] => by simp
  | c, a :: l => by simp [sum_map_mul_const c l, mul_add]

theorem combine_map_mul (c : ℚ) (ws : List ℚ) (vs : List (List ℚ)) :
    combine (ws.map (fun a => c * a)) vs = smulVec c (combine ws vs) := by
  apply list_ext_getD
  · simp [length_combine, length_smulVec]
  · intro k hk
    rw [length_combine] at hk
    rw [getD_combine _ _ _ hk, getD_smulVec, getD_combine _ _ _ hk]
    rw [List.zipWith_map_left]
    have hfun : (fun (a : ℚ) (v : List ℚ) => c * a * v.getD k 0)
        = fun a v => c * (a * v.getD k 0) := by
      funext a v; ring
    rw [hfun, ← List.map_zipWith, sum_map_mul_const]

theorem combine_pair (a b : ℚ) (v0 v1 : List ℚ) (h : v1.length = v0.length) :
    combine [a, b] [v0, v1] = vecAdd (smulVec a v0) (smulVec b v1) := by
  apply list_ext_getD
  · simp [length_combine, length_vecAdd, length_smulVec, h]
  · intro k hk
    rw [length_combine] at hk
    simp only [List.headD_cons] at hk
    rw [getD_combine _ _ _ (by simpa using hk),
      getD_vecAdd _ _ _ (by simpa [length_smulVec] using hk)
        (by simp only [length_smulVec]; omega),
      getD_smulVec, getD_smulVec]
    simp [List.zipWith]

theorem vecAdd_halves (v : List ℚ) :
    vecAdd (smulVec (1 / 2) v) (smulVec (1 / 2) v) = v := by
  apply list_ext_getD
  · simp [length_vecAdd, length_smulVec]
  · intro k hk
    simp only [length_vecAdd, length_smulVec, min_self] at hk
    rw [getD_vecAdd _ _ _ (by simpa [length_smulVec] using hk)
        (by simpa [length_smulVec] using hk),
      getD_smulVec]
    ring

/-- A one-hot routing-weight vector of length `k` with the unit weight at
position `p`: the spec's "single selected expert with weight 1.0". -/
def oneHot : ℕ → ℕ → List ℚ
  | 0, _ => []
  | n + 1, 0 => 1 :: List.replicate n 0
  | n + 1, p + 1 => 0 :: oneHot n p

theorem sum_zip_replicate_zero (c : ℕ) :
    ∀ (n : ℕ) (vs : List (List ℚ)),
      (List.zipWith (fun a v => a * v.getD c 0) (List.replicate n (0 : ℚ)) vs).sum = 0
  | 0, _ => by simp
  | _ + 1, [] => by simp
  | n + 1, v :: vs => by
      rw [List.replicate_succ, List.zipWith_cons_cons, List.sum_cons, zero_mul, zero_add]
      exact sum_zip_replicate_zero c n vs

theorem sum_zip_oneHot (vs : List (List ℚ)) : ∀ (k p c : ℕ), p < k → p < vs.length →
    (List.zipWith (fun a v => a * v.getD c 0) (oneHot k p) vs).sum
      = (vs.getD p []).getD c 0 := by
  induction vs with
  | nil => intro k p c _ hv; simp at hv
  | cons v t ih =>
    intro k p c hk hv
    cases k with
    | zero => exact absurd hk (Nat.not_lt_zero p)
    | succ n =>
      cases p with
      | zero =>
        simp only [oneHot, List.zipWith_cons_cons, List.sum_cons, one_mul,
          List.getD_cons_zero]
        rw [sum_zip_replicate_zero c n t, add_zero]
      | succ q =>
        have := ih n q c (Nat.lt_of_succ_lt_succ hk) (Nat.lt_of_succ_lt_succ hv)
        simp only [oneHot, List.zipWith_cons_cons, List.sum_cons, zero_mul, zero_add,
          List.getD_cons_succ]
        exact this

theorem headD_eq_getD (l : List (List ℚ)) (d : List ℚ) : l.headD d = l.getD 0 d := by
  cases l <;> rfl

theorem getD_map_of_lt {α β : Type} (f : α → β) (l : List α) (n : ℕ) (h : n < l.length)
    (d : β) (d' : α) : (l.map f).getD n d = f (l.getD n d') := by
  rw [List.getD_eq_getElem _ _ (by simpa using h), List.getElem_map,
    List.getD_eq_getElem _ _ h]

theorem getD_zipWith_of_lt {α β γ : Type} (f : α → β → γ) (v : List α) (w : List β)
    (c : ℕ) (h1 : c < v.length) (h2 : c < w.length) (d : γ) (da : α) (db : β) :
    (List.zipWith f v w).getD c d = f (v.getD c da) (w.getD c db) := by
  rw [List.getD_eq_getElem _ _ (by rw [List.length_zipWith]; omega),
    List.getElem_zipWith, List.getD_eq_getElem _ _ h1, List.getD_eq_getElem _ _ h2]

theorem call_eq_some (silu : ℚ → ℚ) (m : Weights) (topk_idx : List (List ℕ))
    (topk_weight : List (List ℚ)) (hidden_states : List (List (List ℚ)))
    (o : List (List (List ℚ))) (h : call silu m topk_idx topk_weight hidden_states = some o) :
    o = (sharedSeq silu m hidden_states).map
      (fun smat => List.zipWith vecAdd
        (sparseSeq silu m topk_idx topk_weight (hidden_states.headD [])) smat) := by
  unfold call at h
  split at h
  · split at h
    · exact absurd h (by simp)
    · split at h
      · exact (Option.some.inj h).symm
      · exact absurd h (by simp)
  · exact absurd h (by simp)

theorem call_some_conditions (silu : ℚ → ℚ) (m : Weights) (topk_idx : List (List ℕ))
    (topk_weight : List (List ℚ)) (hidden_states : List (List (List ℚ)))
    (o : List (List (List ℚ))) (h : call silu m topk_idx topk_weight hidden_states = some o) :
    gatherOk m topk_idx = true ∧ hidden_states.isEmpty = false
      ∧ gateShapeOk topk_idx topk_weight (hidden_states.headD []) = true := by
  unfold call at h
  split at h
  · split at h
    · exact absurd h (by simp)
    · split at h
      · exact ⟨by assumption, by simp_all, by assumption⟩
      · exact absurd h (by simp)
  · exact absurd h (by simp)

theorem call_eq_some_of (silu : ℚ → ℚ) (m : Weights) (topk_idx : List (List ℕ))
    (topk_weight : List (List ℚ)) (hidden_states : List (List (List ℚ)))
    (h1 : gatherOk m topk_idx = true) (h2 : hidden_states.isEmpty = false)
    (h3 : gateShapeOk topk_idx topk_weight (hidden_states.headD []) = true) :
    call silu m topk_idx topk_weight hidden_states
      = some ((sharedSeq silu m hidden_states).map
        (fun smat => List.zipWith vecAdd
          (sparseSeq silu m topk_idx topk_weight (hidden_states.headD [])) smat)) := by
  unfold call
  rw [if_pos h1, h2, if_pos h3]
  rfl

/-- Symbolic numeric dtypes, for tracing the two explicit `cast` calls of
`MoE.__call__`. -/
inductive TDtype
  | bfloat16
  | float16
  | float32
deriving DecidableEq

/-- Modelled from the spec: binary tensor operators of the host library
(matmul, elementwise `*` and `+`) require equal operand dtypes and produce that
dtype; a dtype mismatch "must be resolved by explicit cast before combination
… rather than left to fail at combination time". -/
def binDType (a b : TDtype) : Option TDtype := if a = b then some a else none

/-- The dtype trace of `MoE.__call__`: `input` is the dtype of
`hidden_states`/`identity`, `layer` the dtype of the layer's weight tensors,
`gateW` the dtype of `topk_weight`.  Follows the source: the expert matmuls,
the `.cast(topk_weight.dtype)` on `down_projs`, the weighted combination, the
`.cast(identity.dtype)` giving `final_out`, the shared-expert pathway on
`identity`, and the final `+`. -/
def callDType (input layer gateW : TDtype) : Option TDtype := do
  let up ← binDType layer input
  let gp ← binDType layer input
  let ug ← binDType up gp
  let dn ← binDType layer ug
  let _ := dn
  let dnCast := gateW
  let summed ← binDType gateW dnCast
  let _ := summed
  let final := input
  let sg ← binDType input layer
  let su ← binDType input layer
  let sm ← binDType sg su
  let sd ← binDType sm layer
  binDType final sd

theorem callDType_eq (d g : TDtype) : callDType d d g = some d := by
  simp [callDType, binDType]

/-- A tiny concrete layer (one expert, hidden size 1, intermediate size 1, all
weight entries 1), used to evaluate the theorems on closed inputs. -/
def sampleW : Weights where
  down_proj := [[[1]]]
  gate_proj := [[[1]]]
  up_proj := [[[1]]]
  shared_expert_gate_proj := [[1]]
  shared_expert_up_proj := [[1]]
  shared_expert_down_proj := [[1]]

/-- C4: scaling every entry of a token's `topk_weight` row by a constant `c`
(holding hidden states, indices and weights fixed) scales that token's
sparse-routing contribution, as computed by `MoE.__call__`'s weighted
combination, by exactly `c`. -/
theorem claim_C4_topk_weight_scaling (silu : ℚ → ℚ) (m : Weights) (idx : List ℕ)
    (ws : List ℚ) (x : List ℚ) (c : ℚ) :
    sparseTokenOut silu m idx (ws.map (fun a => c * a)) x
      = smulVec c (sparseTokenOut silu m idx ws x) := by
  unfold sparseTokenOut
  exact combine_map_mul c ws _

/-- C5: duplicate routing indices are not deduplicated: for gate output
indices `[1, 1]` with weights `[0.5, 0.5]`, the sparse contribution equals the
full output of expert 1's gated feed-forward (two identical half-weighted
terms sum to the whole). -/
theorem claim_C5_duplicate_indices (silu : ℚ → ℚ) (m : Weights) (x : List ℚ) :
    sparseTokenOut silu m [1, 1] [1 / 2, 1 / 2] x
      = expertApply silu (m.down_proj.getD 1 []) (m.gate_proj.getD 1 [])
          (m.up_proj.getD 1 []) x := by
  unfold sparseTokenOut
  simp only [List.map_cons, List.map_nil]
  rw [combine_pair _ _ _ _ rfl, vecAdd_halves]

/-- C6: the shared-expert contribution is independent of the gate's output:
for a fixed input, any two successful runs of `MoE.__call__` with different
routing decisions decompose as sparse-part plus the *same* shared term
`sharedSeq silu m hs`, a function of the original, unmodified input only. -/
theorem claim_C6_shared_independent (silu : ℚ → ℚ) (m : Weights)
    (ti1 : List (List ℕ)) (tw1 : List (List ℚ)) (ti2 : List (List ℕ))
    (tw2 : List (List ℚ)) (hs : List (List (List ℚ))) (o1 o2 : List (List (List ℚ)))
    (h1 : call silu m ti1 tw1 hs = some o1) (h2 : call silu m ti2 tw2 hs = some o2) :
    o1 = (sharedSeq silu m hs).map (fun smat =>
        List.zipWith vecAdd (sparseSeq silu m ti1 tw1 (hs.headD [])) smat)
    ∧ o2 = (sharedSeq silu m hs).map (fun smat =>
        List.zipWith vecAdd (sparseSeq silu m ti2 tw2 (hs.headD [])) smat) :=
  ⟨call_eq_some _ _ _ _ _ _ h1, call_eq_some _ _ _ _ _ _ h2⟩

theorem claim_C6_shared_independent_witness :
    ([[[2]]] : List (List (List ℚ))) = (sharedSeq id sampleW [[[1]]]).map (fun smat =>
        List.zipWith vecAdd (sparseSeq id sampleW [[0]] [[1]] ([[[1]]].headD [])) smat)
    ∧ ([[[3]]] : List (List (List ℚ))) = (sharedSeq id sampleW [[[1]]]).map (fun smat =>
        List.zipWith vecAdd (sparseSeq id sampleW [[0]] [[2]] ([[[1]]].headD [])) smat) :=
  claim_C6_shared_independent id sampleW [[0]] [[1]] [[0]] [[2]] [[[1]]]
    [[[2]]] [[[3]]]
    (by norm_num [call, callOut, gatherOk, gateShapeOk, sharedSeq, sparseSeq, sparseTokenOut,
      combine, expertApply, sharedExpertOut, matVec, dot, vecMul, vecAdd, smulVec, sampleW,
      List.range_succ, List.range_zero])
    (by norm_num [call, callOut, gatherOk, gateShapeOk, sharedSeq, sparseSeq, sparseTokenOut,
      combine, expertApply, sharedExpertOut, matVec, dot, vecMul, vecAdd, smulVec, sampleW,
      List.range_succ, List.range_zero])

/-- C9: an out-of-range expert index in the gate's output makes
`MoE.__call__` fail (the gather raises); the index is never clamped or
wrapped into range. -/
theorem claim_C9_out_of_range_raises (silu : ℚ → ℚ) (m : Weights)
    (ti : List (List ℕ)) (tw : List (List ℚ)) (hs : List (List (List ℚ)))
    (row : List ℕ) (i : ℕ) (hrow : row ∈ ti) (hi : i ∈ row)
    (hoob : m.down_proj.length ≤ i) :
    call silu m ti tw hs = none := by
  have hg : gatherOk m ti = false := by
    rw [← Bool.not_eq_true]
    intro hc
    simp only [gatherOk, List.all_eq_true] at hc
    have := hc row hrow i hi
    simp only [Bool.and_eq_true, decide_eq_true_eq] at this
    omega
  simp [call, hg]

theorem claim_C9_out_of_range_raises_witness :
    call id sampleW [[5]] [[1]] [[[1]]] = none :=
  claim_C9_out_of_range_raises id sampleW [[5]] [[1]] [[[1]]] [5] 5
    (by decide) (by decide) (by decide)

/-- C10: with a batch dimension greater than 1, the sparse contribution is
computed only from batch element 0 (`hidden_states[0]`), and every batch
element `b` of the output is that single-batch sparse contribution
broadcast-added to batch element `b`'s shared-expert output. -/
theorem claim_C10_batch_broadcast (silu : ℚ → ℚ) (m : Weights)
    (ti : List (List ℕ)) (tw : List (List ℚ)) (hs : List (List (List ℚ)))
    (o : List (List (List ℚ))) (h1b : 1 < hs.length)
    (h : call silu m ti tw hs = some o) :
    ∀ b, b < hs.length →
      o.getD b [] = List.zipWith vecAdd (sparseSeq silu m ti tw (hs.headD []))
        ((hs.getD b []).map (sharedExpertOut silu m)) := by
  intro b hbl
  rw [call_eq_some _ _ _ _ _ _ h]
  unfold sharedSeq
  rw [getD_map_of_lt _ _ b (by simpa using hbl) [] [],
    getD_map_of_lt _ _ b hbl [] []]

theorem claim_C10_batch_broadcast_witness :
    ([[[2]], [[5]]] : List (List (List ℚ))).getD 1 []
      = List.zipWith vecAdd (sparseSeq id sampleW [[0]] [[1]] ([[[1]], [[2]]].headD []))
        (([[[1]], [[2]]].getD 1 []).map (sharedExpertOut id sampleW)) :=
  claim_C10_batch_broadcast id sampleW [[0]] [[1]] [[[1]], [[2]]] [[[2]], [[5]]]
    (by norm_num)
    (by norm_num [call, callOut, gatherOk, gateShapeOk, sharedSeq, sparseSeq, sparseTokenOut,
      combine, expertApply, sharedExpertOut, matVec, dot, vecMul, vecAdd, smulVec, sampleW,
      List.range_succ, List.range_zero])
    1 (by norm_num)

/-- C3: if a token's `topk_weight` row is one-hot (a single selected expert
with weight 1.0 at position `p`), the token's sparse contribution equals
exactly that one expert's gated feed-forward output. -/
theorem claim_C3_onehot_routing (silu : ℚ → ℚ) (m : Weights) (idx : List ℕ)
    (x : List ℚ) (p : ℕ) (hp : p < idx.length)
    (hlen : (m.down_proj.getD (idx.getD p 0) []).length
      = (m.down_proj.getD (idx.getD 0 0) []).length) :
    sparseTokenOut silu m idx (oneHot idx.length p) x
      = expertApply silu (m.down_proj.getD (idx.getD p 0) [])
          (m.gate_proj.getD (idx.getD p 0) []) (m.up_proj.getD (idx.getD p 0) []) x := by
  unfold sparseTokenOut
  apply list_ext_getD
  · rw [length_combine, headD_eq_getD,
      getD_map_of_lt _ idx 0 (by omega) [] 0, length_expertApply, length_expertApply]
    exact hlen.symm
  · intro c hc
    rw [length_combine, headD_eq_getD,
      getD_map_of_lt _ idx 0 (by omega) [] 0, length_expertApply] at hc
    rw [getD_combine _ _ c (by
      rw [headD_eq_getD, getD_map_of_lt _ idx 0 (by omega) [] 0, length_expertApply]
      exact hc)]
    rw [sum_zip_oneHot _ idx.length p c hp (by simpa using hp),
      getD_map_of_lt _ idx p hp [] 0]

theorem claim_C3_onehot_routing_witness :
    sparseTokenOut id sampleW [0] (oneHot [0].length 0) [1]
      = expertApply id (sampleW.down_proj.getD ([0].getD 0 0) [])
          (sampleW.gate_proj.getD ([0].getD 0 0) [])
          (sampleW.up_proj.getD ([0].getD 0 0) []) [1] :=
  claim_C3_onehot_routing id sampleW [0] [1] 0 (by norm_num) rfl

/-- A concrete 4-expert layer matching the C1 scenario configuration
(`experts_per_rank = 4`, hidden size 8): each expert's `down_proj` has 8 rows. -/
def sample4 : Weights where
  down_proj := List.replicate 4 (List.replicate 8 [])
  gate_proj := List.replicate 4 []
  up_proj := List.replicate 4 []
  shared_expert_gate_proj := []
  shared_expert_up_proj := []
  shared_expert_down_proj := []

/-- A hidden-state vector of size 8 for the C1 scenario. -/
def x8 : List ℚ := List.replicate 8 0

/-- C1: in the concrete scenario (`experts_per_rank = 4`,
`num_experts_per_tok = 2`, hidden 8, one token, gate indices `[0, 2]`, weights
`[0.7, 0.3]`) the output of `MoE.__call__` is the sparse contribution
`0.7*E0(x) + 0.3*E2(x)` plus the shared-expert output, where `Ei` is the
spec's gated feed-forward `down_i · (silu(gate_i · x) * (up_i · x))`; and in
general the per-(token, selected-expert) computation `expertApply` coincides
with that formula. -/
theorem claim_C1_concrete_scenario (silu : ℚ → ℚ) (m : Weights) (x : List ℚ)
    (h8x : x.length = 8)
    (h4d : m.down_proj.length = 4) (h4g : m.gate_proj.length = 4)
    (h4u : m.up_proj.length = 4)
    (h0 : (m.down_proj.getD 0 []).length = 8)
    (h2 : (m.down_proj.getD 2 []).length = 8) :
    call silu m [[0, 2]] [[7 / 10, 3 / 10]] [[x]]
      = some [[vecAdd
          (vecAdd
            (smulVec (7 / 10) (specExpertFF silu (m.down_proj.getD 0 [])
              (m.gate_proj.getD 0 []) (m.up_proj.getD 0 []) x))
            (smulVec (3 / 10) (specExpertFF silu (m.down_proj.getD 2 [])
              (m.gate_proj.getD 2 []) (m.up_proj.getD 2 []) x)))
          (sharedExpertOut silu m x)]]
    ∧ expertApply = specExpertFF := by
  constructor
  · have hg : gatherOk m [[0, 2]] = true := by
      simp [gatherOk, h4d, h4g, h4u]
    have hsh : gateShapeOk [[0, 2]] [[7 / 10, 3 / 10]] ([[x]].headD []) = true := by
      simp [gateShapeOk]
    rw [call_eq_some_of silu m [[0, 2]] [[7 / 10, 3 / 10]] [[x]] hg rfl hsh]
    have hsp : sparseTokenOut silu m [0, 2] [7 / 10, 3 / 10] x
        = vecAdd
          (smulVec (7 / 10) (specExpertFF silu (m.down_proj.getD 0 [])
            (m.gate_proj.getD 0 []) (m.up_proj.getD 0 []) x))
          (smulVec (3 / 10) (specExpertFF silu (m.down_proj.getD 2 [])
            (m.gate_proj.getD 2 []) (m.up_proj.getD 2 []) x)) := by
      unfold sparseTokenOut
      simp only [List.map_cons, List.map_nil]
      rw [combine_pair _ _ _ _
        (by rw [length_expertApply, length_expertApply, h2, h0]),
        expertApply_eq_specExpertFF, expertApply_eq_specExpertFF]
    unfold sharedSeq sparseSeq
    simp only [List.map_cons, List.map_nil, List.headD_cons, List.zip_cons_cons,
      List.zip_nil_left, List.zip_nil_right, List.zipWith_cons_cons,
      List.zipWith_nil_left, List.zipWith_nil_right, Option.some.injEq,
      List.cons.injEq, and_true]
    rw [hsp]
  · funext silu' down gate up y
    exact expertApply_eq_specExpertFF silu' down gate up y

theorem claim_C1_concrete_scenario_witness :
    call id sample4 [[0, 2]] [[7 / 10, 3 / 10]] [[x8]]
      = some [[vecAdd
          (vecAdd
            (smulVec (7 / 10) (specExpertFF id (sample4.down_proj.getD 0 [])
              (sample4.gate_proj.getD 0 []) (sample4.up_proj.getD 0 []) x8))
            (smulVec (3 / 10) (specExpertFF id (sample4.down_proj.getD 2 [])
              (sample4.gate_proj.getD 2 []) (sample4.up_proj.getD 2 []) x8)))
          (sharedExpertOut id sample4 x8)]]
    ∧ expertApply = specExpertFF :=
  claim_C1_concrete_scenario id sample4 x8 (by norm_num [x8])
    (by norm_num [sample4]) (by norm_num [sample4]) (by norm_num [sample4])
    (by norm_num [sample4]) (by norm_num [sample4])

/-- C2: for a valid configuration (all expert `down_proj` banks and the shared
`down_proj` have `hDim` rows, the gate output is in range and well-shaped) and
an input of shape `[1, seq, hDim]`, `MoE.__call__` succeeds and its output has
the input's shape: one batch element, one row per input token, and each output
row as long as the corresponding input row; and the symbolic dtype trace
returns exactly the input dtype whenever the layer dtype matches it. -/
theorem claim_C2_shape_dtype (silu : ℚ → ℚ) (m : Weights) (ti : List (List ℕ))
    (tw : List (List ℚ)) (mat : List (List ℚ)) (hDim : ℕ)
    (hrows : ∀ r ∈ mat, r.length = hDim)
    (hshared : m.shared_expert_down_proj.length = hDim)
    (hexp : ∀ i, i < m.down_proj.length → (m.down_proj.getD i []).length = hDim)
    (hg : gatherOk m ti = true)
    (hsh : gateShapeOk ti tw mat = true)
    (hne : ∀ row ∈ ti, row ≠ []) :
    call silu m ti tw [mat] = some (callOut silu m ti tw [mat])
    ∧ (callOut silu m ti tw [mat]).length = ([mat] : List (List (List ℚ))).length
    ∧ ((callOut silu m ti tw [mat]).getD 0 []).map List.length = mat.map List.length
    ∧ (fun (din dg : TDtype) => callDType din din dg)
        = (fun din _ => some din) := by
  have hcall : call silu m ti tw [mat] = some (callOut silu m ti tw [mat]) :=
    call_eq_some_of silu m ti tw [mat] hg rfl hsh
  simp only [gateShapeOk, Bool.and_eq_true, decide_eq_true_eq, List.all_eq_true] at hsh
  obtain ⟨⟨hti, htw⟩, _⟩ := hsh
  simp only [gatherOk, List.all_eq_true, Bool.and_eq_true, decide_eq_true_eq] at hg
  have hlsp : (sparseSeq silu m ti tw mat).length = mat.length := by
    unfold sparseSeq
    rw [List.length_zipWith, List.length_zip, hti, htw]
    omega
  have ho0 : (callOut silu m ti tw [mat]).getD 0 []
      = List.zipWith vecAdd (sparseSeq silu m ti tw mat)
        (mat.map (sharedExpertOut silu m)) := by
    unfold callOut sharedSeq
    simp only [List.map_cons, List.map_nil, List.getD_cons_zero, List.headD_cons]
  refine ⟨hcall, by simp [callOut, sharedSeq], ?_, ?_⟩
  · rw [ho0]
    apply List.ext_getElem
    · rw [List.length_map, List.length_map, List.length_zipWith, hlsp, List.length_map]
      omega
    · intro t h1 h2
      rw [List.length_map, List.length_zipWith, hlsp, List.length_map, min_self] at h1
      rw [List.getElem_map, List.getElem_map]
      rw [← List.getD_eq_getElem _ []
          (by rw [List.length_zipWith, hlsp, List.length_map]; omega),
        ← List.getD_eq_getElem mat [] h1]
      rw [getD_zipWith_of_lt vecAdd _ _ t (by omega)
        (by rw [List.length_map]; exact h1) [] [] []]
      rw [length_vecAdd, getD_map_of_lt _ mat t h1 [] []]
      have hsl : (sharedExpertOut silu m (mat.getD t [])).length = hDim := by
        unfold sharedExpertOut
        rw [length_matVec, hshared]
      unfold sparseSeq
      rw [getD_zipWith_of_lt _ mat (ti.zip tw) t h1
        (by rw [List.length_zip, hti, htw]; omega) [] [] ([], [])]
      have hzip : (ti.zip tw).getD t ([], []) = (ti.getD t [], tw.getD t []) :=
        getD_zipWith_of_lt Prod.mk ti tw t (by omega) (by omega) ([], []) [] []
      rw [hzip]
      have hrowmem : ti.getD t [] ∈ ti := by
        rw [List.getD_eq_getElem _ _ (by omega)]
        exact List.getElem_mem _
      have hrowlen : 0 < (ti.getD t []).length :=
        List.length_pos.mpr (hne _ hrowmem)
      have hi0mem : (ti.getD t []).getD 0 0 ∈ ti.getD t [] := by
        rw [List.getD_eq_getElem _ _ hrowlen]
        exact List.getElem_mem _
      have hi0lt := (hg _ hrowmem _ hi0mem).1.1
      have hsparse : (sparseTokenOut silu m (ti.getD t []) (tw.getD t [])
          (mat.getD t [])).length = hDim := by
        unfold sparseTokenOut
        rw [length_combine, headD_eq_getD, getD_map_of_lt _ _ 0 hrowlen [] 0,
          length_expertApply]
        exact hexp _ hi0lt
      rw [hsparse, hsl]
      have hmt : (mat.getD t []).length = hDim := by
        refine hrows _ ?_
        rw [List.getD_eq_getElem _ _ h1]
        exact List.getElem_mem _
      omega
  · funext din dg
    exact callDType_eq din dg

theorem claim_C2_shape_dtype_witness :
    call id sampleW [[0]] [[1]] [[[1]]] = some (callOut id sampleW [[0]] [[1]] [[[1]]])
    ∧ (callOut id sampleW [[0]] [[1]] [[[1]]]).length
        = ([[[1]]] : List (List (List ℚ))).length
    ∧ ((callOut id sampleW [[0]] [[1]] [[[1]]]).getD 0 []).map List.length
        = ([[1]] : List (List ℚ)).map List.length
    ∧ (fun (din dg : TDtype) => callDType din din dg)
        = (fun din _ => some din) :=
  claim_C2_shape_dtype id sampleW [[0]] [[1]] [[1]] 1
    (by norm_num) (by norm_num [sampleW]) (by norm_num [sampleW])
    (by norm_num [gatherOk, sampleW]) (by norm_num [gateShapeOk])
    (by norm_num)

/-- The three projection kinds of an expert's weight triple. -/
inductive ProjKind
  | down
  | gate
  | up
deriving DecidableEq

/-- The per-projection part of the weight-tensor name after the expert index:
the `.{proj}_proj.weight` tail of the f-string in `MoE.__init__`. -/
def projSuffix : ProjKind → String
  | .down => ".down_proj.weight"
  | .gate => ".gate_proj.weight"
  | .up => ".up_proj.weight"

/-- Decimal digit characters of a natural number, most significant first:
the embedding of Python's decimal formatting of `{i}` in the f-string. -/
def natChars (n : ℕ) : List Char :=
  if n = 0 then ['0'] else ((Nat.digits 10 n).reverse.map Nat.digitChar)

/-- Decimal string of a natural number. -/
def natStr (n : ℕ) : String := ⟨natChars n⟩

/-- The registered name `experts.{i}.{proj}_proj.weight` of one expert weight
tensor, from the f-strings of `MoE.__init__` (lines 77–108). -/
def weightName (i : ℕ) (p : ProjKind) : String :=
  "experts." ++ natStr i ++ projSuffix p

/-- One registered parameter tensor: its name and its 2-D shape. -/
structure RegWeight where
  name : String
  rows : ℤ
  cols : ℤ
deriving DecidableEq

/-- The routed-expert weight tensors registered by the `__init__` loop, in
source order (`down`, `gate`, `up` for each expert index `0..n-1`): `down_proj`
has shape `(max_position_embeddings, moe_intermediate_size)`, `gate_proj` and
`up_proj` have shape `(moe_intermediate_size, max_position_embeddings)`, where
`hidden` stands for `max_position_embeddings` and `inter` for
`moe_intermediate_size`. -/
def expertWeightList (n : ℕ) (hidden inter : ℤ) : List RegWeight :=
  (List.range n).flatMap (fun i =>
    [⟨weightName i ProjKind.down, hidden, inter⟩,
     ⟨weightName i ProjKind.gate, inter, hidden⟩,
     ⟨weightName i ProjKind.up, inter, hidden⟩])

/-- Numeric value of a decimal digit character. -/
def charVal (c : Char) : ℕ := c.toNat - 48

/-- Decimal value of a most-significant-first digit-character list. -/
def decVal (cs : List Char) : ℕ := Nat.ofDigits 10 ((cs.map charVal).reverse)

theorem decVal_natChars (n : ℕ) : decVal (natChars n) = n := by
  unfold natChars decVal
  split
  · subst n
    show Nat.ofDigits 10 [charVal '0'] = 0
    have : charVal '0' = 0 := by decide
    rw [this]
    simp [Nat.ofDigits]
  · rw [List.map_map]
    have hcongr : (Nat.digits 10 n).reverse.map (charVal ∘ Nat.digitChar)
        = (Nat.digits 10 n).reverse.map id := by
      apply List.map_congr_left
      intro d hd
      have hlt : d < 10 := Nat.digits_lt_base (by norm_num) (List.mem_reverse.mp hd)
      clear hd
      revert hlt
      revert d
      decide
    rw [hcongr, List.map_id, List.reverse_reverse, Nat.ofDigits_digits]

theorem natChars_all_digit (n : ℕ) : ∀ c ∈ natChars n, c.isDigit = true := by
  unfold natChars
  split
  · intro c hc
    simp only [List.mem_singleton] at hc
    subst hc
    decide
  · intro c hc
    simp only [List.mem_map, List.mem_reverse] at hc
    obtain ⟨d, hd, rfl⟩ := hc
    have hlt : d < 10 := Nat.digits_lt_base (by norm_num) hd
    clear hd
    revert hlt
    revert d
    decide

theorem takeWhile_append_all {p : Char → Bool} :
    ∀ (a b : List Char), (∀ c ∈ a, p c = true) →
      (a ++ b).takeWhile p = a ++ b.takeWhile p
  | [], b, _ => rfl
  | c :: a, b, h => by
      have hc : p c = true := h c (List.mem_cons_self c a)
      simp only [List.cons_append, List.takeWhile_cons, hc, if_true]
      rw [takeWhile_append_all a b (fun x hx => h x (List.mem_cons_of_mem c hx))]

theorem dropWhile_append_all {p : Char → Bool} :
    ∀ (a b : List Char), (∀ c ∈ a, p c = true) →
      (a ++ b).dropWhile p = b.dropWhile p
  | [], b, _ => rfl
  | c :: a, b, h => by
      have hc : p c = true := h c (List.mem_cons_self c a)
      simp only [List.cons_append, List.dropWhile_cons, hc, if_true]
      exact dropWhile_append_all a b (fun x hx => h x (List.mem_cons_of_mem c hx))

theorem takeWhile_projSuffix (p : ProjKind) :
    (projSuffix p).data.takeWhile Char.isDigit = [] := by
  cases p <;> decide

theorem dropWhile_projSuffix (p : ProjKind) :
    (projSuffix p).data.dropWhile Char.isDigit = (projSuffix p).data := by
  cases p <;> decide

/-- Recover the expert index from a registered weight name. -/
def nameIdx (s : String) : ℕ := decVal ((s.data.drop 8).takeWhile Char.isDigit)

/-- Recover the projection tail from a registered weight name. -/
def nameTail (s : String) : List Char := (s.data.drop 8).dropWhile Char.isDigit

theorem weightName_data (i : ℕ) (p : ProjKind) :
    (weightName i p).data = "experts.".data ++ (natChars i ++ (projSuffix p).data) := by
  unfold weightName natStr
  rw [String.data_append, String.data_append, List.append_assoc]

theorem nameIdx_weightName (i : ℕ) (p : ProjKind) : nameIdx (weightName i p) = i := by
  unfold nameIdx
  rw [weightName_data,
    show (8 : ℕ) = ("experts.".data).length from rfl, List.drop_left,
    takeWhile_append_all _ _ (natChars_all_digit i), takeWhile_projSuffix,
    List.append_nil, decVal_natChars]

theorem nameTail_weightName (i : ℕ) (p : ProjKind) :
    nameTail (weightName i p) = (projSuffix p).data := by
  unfold nameTail
  rw [weightName_data,
    show (8 : ℕ) = ("experts.".data).length from rfl, List.drop_left,
    dropWhile_append_all _ _ (natChars_all_digit i), dropWhile_projSuffix]

theorem projSuffix_data_inj : ∀ p q : ProjKind,
    (projSuffix p).data = (projSuffix q).data → p = q := by
  intro p q h
  cases p <;> cases q <;> first
    | rfl
    | exact absurd h (by decide)

theorem weightName_inj (i j : ℕ) (p q : ProjKind) (h : weightName i p = weightName j q) :
    i = j ∧ p = q := by
  constructor
  · rw [← nameIdx_weightName i p, h, nameIdx_weightName]
  · apply projSuffix_data_inj
    rw [← nameTail_weightName i p, h, nameTail_weightName]

theorem names_expertWeightList (n : ℕ) (hidden inter : ℤ) :
    (expertWeightList n hidden inter).map RegWeight.name
      = (List.range n).flatMap (fun i =>
        [weightName i ProjKind.down, weightName i ProjKind.gate,
          weightName i ProjKind.up]) := by
  unfold expertWeightList
  rw [List.map_flatMap]
  simp only [List.map_cons, List.map_nil]

theorem mem_nameFlat (n : ℕ) (s : String)
    (h : s ∈ (List.range n).flatMap (fun i =>
      [weightName i ProjKind.down, weightName i ProjKind.gate,
        weightName i ProjKind.up])) :
    ∃ i, i < n ∧ ∃ p, s = weightName i p := by
  rw [List.mem_flatMap] at h
  obtain ⟨i, hi, hmem⟩ := h
  refine ⟨i, List.mem_range.mp hi, ?_⟩
  simp only [List.mem_cons, List.not_mem_nil, or_false] at hmem
  rcases hmem with h | h | h
  · exact ⟨ProjKind.down, h⟩
  · exact ⟨ProjKind.gate, h⟩
  · exact ⟨ProjKind.up, h⟩

theorem nodup_nameFlat (n : ℕ) :
    ((List.range n).flatMap (fun i =>
      [weightName i ProjKind.down, weightName i ProjKind.gate,
        weightName i ProjKind.up])).Nodup := by
  induction n with
  | zero => simp
  | succ k ih =>
    rw [List.range_succ, List.flatMap_append]
    refine List.Nodup.append ih ?_ ?_
    · simp only [List.flatMap_cons, List.flatMap_nil, List.append_nil]
      refine List.nodup_cons.mpr ⟨?_, List.nodup_cons.mpr ⟨?_, List.nodup_singleton _⟩⟩
      · intro hmem
        simp only [List.mem_cons, List.not_mem_nil, or_false] at hmem
        rcases hmem with h | h <;>
          exact absurd (weightName_inj _ _ _ _ h).2 (by decide)
      · intro hmem
        simp only [List.mem_singleton] at hmem
        exact absurd (weightName_inj _ _ _ _ hmem).2 (by decide)
    · intro s hsA hsB
      obtain ⟨i, hi, p, rfl⟩ := mem_nameFlat k s hsA
      simp only [List.flatMap_cons, List.flatMap_nil, List.append_nil,
        List.mem_cons, List.not_mem_nil, or_false] at hsB
      rcases hsB with h | h | h <;>
        exact absurd (weightName_inj _ _ _ _ h).1 (by omega)

/-- C7: for every expert index `i < experts_per_rank`, construction registers
the three tensors `experts.<i>.down_proj.weight` (shape `[hidden, inter]`),
`experts.<i>.gate_proj.weight` and `experts.<i>.up_proj.weight` (shape
`[inter, hidden]`); exactly `3 * experts_per_rank` tensors are registered in
total, and all registered names are distinct (unique and deterministic). -/
theorem claim_C7_registration (n : ℕ) (hidden inter : ℤ) (i : ℕ) (hi : i < n) :
    (⟨weightName i ProjKind.down, hidden, inter⟩ : RegWeight)
        ∈ expertWeightList n hidden inter
    ∧ (⟨weightName i ProjKind.gate, inter, hidden⟩ : RegWeight)
        ∈ expertWeightList n hidden inter
    ∧ (⟨weightName i ProjKind.up, inter, hidden⟩ : RegWeight)
        ∈ expertWeightList n hidden inter
    ∧ (expertWeightList n hidden inter).length = 3 * n
    ∧ ((expertWeightList n hidden inter).map RegWeight.name).Nodup := by
  refine ⟨?_, ?_, ?_, ?_, ?_⟩
  · exact List.mem_flatMap.mpr ⟨i, List.mem_range.mpr hi, by simp⟩
  · exact List.mem_flatMap.mpr ⟨i, List.mem_range.mpr hi, by simp⟩
  · exact List.mem_flatMap.mpr ⟨i, List.mem_range.mpr hi, by simp⟩
  · unfold expertWeightList
    rw [List.length_flatMap]
    have hrep : List.map (List.length ∘ (fun i =>
        [(⟨weightName i ProjKind.down, hidden, inter⟩ : RegWeight),
          ⟨weightName i ProjKind.gate, inter, hidden⟩,
          ⟨weightName i ProjKind.up, inter, hidden⟩])) (List.range n)
        = List.replicate n 3 := by
      refine List.eq_replicate_iff.mpr ⟨by simp, ?_⟩
      intro b hb
      simp only [List.mem_map] at hb
      obtain ⟨j, _, rfl⟩ := hb
      rfl
    rw [hrep, List.sum_replicate, smul_eq_mul, Nat.mul_comm]
  · rw [names_expertWeightList]
    exact nodup_nameFlat n

theorem claim_C7_registration_witness :
    (⟨weightName 1 ProjKind.down, 3, 5⟩ : RegWeight) ∈ expertWeightList 2 3 5
    ∧ (⟨weightName 1 ProjKind.gate, 5, 3⟩ : RegWeight) ∈ expertWeightList 2 3 5
    ∧ (⟨weightName 1 ProjKind.up, 5, 3⟩ : RegWeight) ∈ expertWeightList 2 3 5
    ∧ (expertWeightList 2 3 5).length = 3 * 2
    ∧ ((expertWeightList 2 3 5).map RegWeight.name).Nodup :=
  claim_C7_registration 2 3 5 1 (by norm_num)

/-- The record produced by a successful `MoE.__init__`: the stored
configuration fields and the registered routed-expert weight tensors. -/
structure InitResult where
  num_experts_per_tok : ℤ
  ep_size : ℤ
  experts_per_rank : ℤ
  moe_intermediate_size : ℤ
  max_position_embeddings : ℤ
  n_shared_experts : ℤ
  expert_weights : List RegWeight
deriving DecidableEq

/-- Modelled from the spec: the host framework's tensor constructors (`Weight`,
`LinearV2`, not part of this file's source) are taken to reject a tensor with a
non-positive dimension — the reading most favourable to the spec's
construction-time error contract. -/
def weightOk (r : RegWeight) : Bool := decide (0 < r.rows) && decide (0 < r.cols)

/-- `MoE.__init__` (lines 42–130): stores the configuration fields unchecked,
registers the per-expert weight triples for indices `0..experts_per_rank-1`,
and creates the three shared-expert linears of dimensions
`(hidden, inter * n_shared_experts)` and back.  The source itself contains no
dimension validation; the only failures are those of the (spec-modelled)
tensor constructors, i.e. a registered tensor with a non-positive dimension. -/
def moeInit (num_experts_per_tok ep_size experts_per_rank moe_intermediate_size
    max_position_embeddings n_shared_experts : ℤ) : Option InitResult :=
  if (expertWeightList experts_per_rank.toNat max_position_embeddings
        moe_intermediate_size).all weightOk
      && decide (0 < max_position_embeddings)
      && decide (0 < moe_intermediate_size * n_shared_experts) then
    some ⟨num_experts_per_tok, ep_size, experts_per_rank, moe_intermediate_size,
      max_position_embeddings, n_shared_experts,
      expertWeightList experts_per_rank.toNat max_position_embeddings
        moe_intermediate_size⟩
  else none

/-- C8 counterexample: a configuration with non-positive dimensions
(`num_experts_per_tok = 0`, `experts_per_rank = 0`) on which construction
completes normally instead of failing: `MoE.__init__` performs no dimension
validation, and with zero experts no routed tensor is even created. -/
theorem claim_C8_counterexample : moeInit 0 1 0 1408 2048 2 ≠ none := by decide

/-- C8 (amended): construction does not itself validate the configuration;
it completes for every `num_experts_per_tok`, `ep_size` and `experts_per_rank`
(including non-positive ones) whenever every registered tensor dimension is
positive, i.e. when `moe_intermediate_size`, the hidden size and
`n_shared_experts` are positive. -/
theorem claim_C8_amended_no_validation (num_experts_per_tok ep_size
    experts_per_rank inter hidden ns : ℤ)
    (h1 : 0 < inter) (h2 : 0 < hidden) (h3 : 0 < ns) :
    (moeInit num_experts_per_tok ep_size experts_per_rank inter hidden ns).isSome
      = true := by
  unfold moeInit
  have hall : (expertWeightList experts_per_rank.toNat hidden inter).all weightOk
      = true := by
    rw [List.all_eq_true]
    intro r hr
    unfold expertWeightList at hr
    rw [List.mem_flatMap] at hr
    obtain ⟨j, _, hmem⟩ := hr
    simp only [List.mem_cons, List.not_mem_nil, or_false] at hmem
    rcases hmem with rfl | rfl | rfl <;> simp [weightOk, h1, h2]
  simp [hall, h2, mul_pos h1 h3]

theorem claim_C8_amended_no_validation_witness :
    (moeInit 0 1 0 1408 2048 2).isSome = true :=
  claim_C8_amended_no_validation 0 1 0 1408 2048 2
    (by norm_num) (by norm_num) (by norm_num)

end MoE
